import Mathlib

/-!
Shallow embedding of the proof-of-work subsystem of the bitbi repository
(`src/pow.cpp`, `src/pow.h`), together with theorems settling the frozen
claims about its natural-language specification.

Conventions of the embedding:
* C++ unsigned machine integers are `Nat` with explicit `% 2^w` where the
  source wraps; bit masks `x & (2^k - 1)` are written `x % 2^k`, shifts
  `x << k` / `x >> k` are written `x * 2^k` / `x / 2^k`.
* C++ `int64_t` arithmetic is `Int` with truncated division/modulus
  (`Int.tdiv`, `Int.tmod`), matching C++ signed semantics; conversion to an
  unsigned type of width `w` is `(i % 2^w).toNat` (Euclidean `%`, which is
  exactly the C++ value of the conversion).
* Fallible or external effects (engine allocation, the shutdown callback,
  the randomx hash engine) are explicit parameters.
-/

namespace Bitbi

/-- The constant `2^256`, the modulus of `arith_uint256` arithmetic. -/
def U256 : Nat := 2 ^ 256

/-- Conversion of a C++ `int64_t` value to `uint32_t` (value modulo `2^32`). -/
def toUInt32n (i : Int) : Nat := (i % (2 ^ 32 : Nat)).toNat

/-- Conversion of a C++ `int64_t` value to `uint64_t` (value modulo `2^64`). -/
def toUInt64n (i : Int) : Nat := (i % (2 ^ 64 : Nat)).toNat

/-- Modelled from the spec: `arith_uint256::SetCompact` (file
`src/arith_uint256.cpp` is not under `src/`; only its callers are).  Spec
§4.1: "`decodeCompact(bits) -> (Target, isNegative, isOverflow)`: unpacks the
3-byte mantissa and exponent-controlled shift".  The unpacking: exponent byte
`size = bits >> 24`, mantissa `word = bits & 0x007fffff`; for `size ≤ 3` the
mantissa is shifted right by `8*(3-size)` bits, otherwise left by
`8*(size-3)` bits inside the 256-bit domain (high bits dropped). -/
def decodeTarget (c : Nat) : Nat :=
  let size := c / 2 ^ 24
  let word := c % 2 ^ 23
  if size ≤ 3 then word / 2 ^ (8 * (3 - size))
  else (word * 2 ^ (8 * (size - 3))) % U256

/-- Modelled from the spec: the `isNegative` output of
`arith_uint256::SetCompact` (not under `src/`).  Spec §4.1: "reports
`isNegative` if the sign bit of the mantissa is set" — the sign bit is bit 23
of the compact word, and a zero mantissa is not reported negative. -/
def decodeNegative (c : Nat) : Bool :=
  c % 2 ^ 23 ≠ 0 ∧ (c / 2 ^ 23) % 2 = 1

/-- Modelled from the spec: the `isOverflow` output of
`arith_uint256::SetCompact` (not under `src/`).  Spec §4.1: "reports
`isOverflow` if the shift would place nonzero mantissa bits beyond the
256-bit representable range": with a nonzero mantissa of up to 3 bytes this
is the case for exponent `> 34`, for exponent `> 33` with a mantissa above
one byte, and for exponent `> 32` with a mantissa above two bytes. -/
def decodeOverflow (c : Nat) : Bool :=
  let size := c / 2 ^ 24
  let word := c % 2 ^ 23
  word ≠ 0 ∧ (size > 34 ∨ (word > 0xff ∧ size > 33) ∨ (word > 0xffff ∧ size > 32))

/-- Modelled from the spec: `base_uint::bits()` (not under `src/`), the bit
length of a 256-bit value, scanned from the highest of the 256 bit
positions downward exactly as the source's bounded loop does.
`bitsLoop n x` is the bit length of `x` looking only at positions below
`n`. -/
def bitsLoop : Nat → Nat → Nat
  | 0, _ => 0
  | n + 1, x => if 2 ^ n ≤ x then n + 1 else bitsLoop n x

/-- The bit length of a `base_uint<256>` value (`bits()`). -/
def bits256 (x : Nat) : Nat := bitsLoop 256 x

/-- Modelled from the spec: `arith_uint256::GetCompact` (not under `src/`).
Spec §4.1: "`encodeCompact(Target) -> CompactTarget`: inverse operation,
normalizing mantissa to 3 bytes with a conventional rounding rule (drop
precision beyond 3 significant bytes; never set the sign bit for legitimate
targets)".  The byte count is `size = (bits() + 7) / 8`; the 3 significant
bytes are obtained by the exponent-controlled shift; if the resulting
mantissa has bit 23 set it is shifted right one more byte and the exponent
incremented, so the sign bit is never set. -/
def encodeCompact (x : Nat) : Nat :=
  let size := (bits256 x + 7) / 8
  let word := if size ≤ 3 then x * 2 ^ (8 * (3 - size)) else x / 2 ^ (8 * (size - 3))
  if 2 ^ 23 ≤ word then (word / 2 ^ 8) + (size + 1) * 2 ^ 24
  else word + size * 2 ^ 24

/-- Consensus parameters consumed by the PoW subsystem
(`Consensus::Params`; spec §3 `ConsensusParams`).  `powLimit` is a `uint256`
value, modelled as a `Nat` below `2^256`. -/
structure ConsensusParams where
  powLimit : Nat
  nPowTargetTimespan : Int
  nPowTargetSpacing : Int
  fPowAllowMinDifficultyBlocks : Bool
  fPowNoRetargeting : Bool

/-- Modelled from the spec: `Consensus::Params::DifficultyAdjustmentInterval`
(`src/consensus/params.h` is not under `src/`).  Spec §3:
"`difficultyAdjustmentInterval = targetTimespan / targetSpacing`". -/
def ConsensusParams.DifficultyAdjustmentInterval (p : ConsensusParams) : Int :=
  Int.tdiv p.nPowTargetTimespan p.nPowTargetSpacing

/-- The fields of `CBlockIndex` read by the retarget engine:
`nHeight`, `nBits` and `GetBlockTime()` (the block time as `int64_t`). -/
structure BlockIndex where
  nHeight : Int
  nTime : Int
  nBits : Nat

/-- The fields of `CBlockHeader` consumed here (spec §3 `BlockHeaderView`).
`hashPrevBlock` and `hashMerkleRoot` are `uint256` values (`Nat` below
`2^256`, serialized little-endian); `nTime`, `nBits`, `nNonce` are
`uint32`. -/
structure BlockHeader where
  nVersion : Int
  hashPrevBlock : Nat
  hashMerkleRoot : Nat
  nTime : Nat
  nBits : Nat
  nNonce : Nat

/-- Function `CheckProofOfWork` (`src/pow.cpp` lines 136-153): decode `nBits` with its
negative/overflow indications, reject out-of-range targets, then compare the
hash against the target. -/
def CheckProofOfWork (hash : Nat) (nBits : Nat) (params : ConsensusParams) : Bool :=
  let bnTarget := decodeTarget nBits
  if decodeNegative nBits ∨ bnTarget = 0 ∨ decodeOverflow nBits ∨ params.powLimit < bnTarget then
    false
  else if hash > bnTarget then false
  else true

/-- Function `CalculateNextWorkRequired` (`src/pow.cpp` lines 59-83).  The timespan
arithmetic is `int64_t`; the multiplier `nActualTimespan*2048/timespan` is
passed to `arith_uint256::operator*=(uint32_t)` (hence the `toUInt32n`), the
product wraps modulo `2^256`, and `/= 2048` truncates. -/
def CalculateNextWorkRequired (pindexLast : BlockIndex) (nFirstBlockTime : Int)
    (params : ConsensusParams) : Nat :=
  if params.fPowNoRetargeting then pindexLast.nBits
  else
    let nActualTimespan0 : Int := pindexLast.nTime - nFirstBlockTime
    let nActualTimespan1 : Int :=
      if nActualTimespan0 < Int.tdiv params.nPowTargetTimespan 4 then
        Int.tdiv params.nPowTargetTimespan 4
      else nActualTimespan0
    let nActualTimespan : Int :=
      if nActualTimespan1 > params.nPowTargetTimespan * 4 then params.nPowTargetTimespan * 4
      else nActualTimespan1
    let bnPowLimit := params.powLimit
    let bnNew0 := decodeTarget pindexLast.nBits
    let bnNew1 :=
      (bnNew0 * toUInt32n (Int.tdiv (nActualTimespan * 2048) params.nPowTargetTimespan)) % U256
    let bnNew2 := bnNew1 / 2048
    let bnNew := if bnNew2 > bnPowLimit then bnPowLimit else bnNew2
    encodeCompact bnNew

/-- Function `PermittedDifficultyTransition` (`src/pow.cpp` lines 87-134).  The
`*= timespan` calls go through `operator*=(uint32_t)` (value modulo `2^32`),
the `/= nPowTargetTimespan` call goes through `operator/=(const base_uint&)`
after conversion of the `int64_t` to `uint64_t`, and products wrap modulo
`2^256`. -/
def PermittedDifficultyTransition (params : ConsensusParams) (height : Int)
    (old_nbits new_nbits : Nat) : Bool :=
  if params.fPowAllowMinDifficultyBlocks then true
  else if Int.tmod height params.DifficultyAdjustmentInterval = 0 then
    let smallest_timespan : Int := Int.tdiv params.nPowTargetTimespan 4
    let largest_timespan : Int := params.nPowTargetTimespan * 4
    let pow_limit := params.powLimit
    let observed_new_target := decodeTarget new_nbits
    let largest_difficulty_target0 :=
      ((decodeTarget old_nbits * toUInt32n largest_timespan) % U256) /
        toUInt64n params.nPowTargetTimespan
    let largest_difficulty_target :=
      if largest_difficulty_target0 > pow_limit then pow_limit else largest_difficulty_target0
    let maximum_new_target := decodeTarget (encodeCompact largest_difficulty_target)
    if maximum_new_target < observed_new_target then false
    else
      let smallest_difficulty_target0 :=
        ((decodeTarget old_nbits * toUInt32n smallest_timespan) % U256) /
          toUInt64n params.nPowTargetTimespan
      let smallest_difficulty_target :=
        if smallest_difficulty_target0 > pow_limit then pow_limit else smallest_difficulty_target0
      let minimum_new_target := decodeTarget (encodeCompact smallest_difficulty_target)
      if minimum_new_target > observed_new_target then false else true
  else if old_nbits ≠ new_nbits then false
  else true

/-- The `k` little-endian bytes of `n` (`WriteLE32` for `k = 4`, the raw
bytes of a `uint256` via `memcpy(.., x.begin(), 32)` for `k = 32`; `uint256`
stores its value little-endian). -/
def leBytes (k : Nat) (n : Nat) : List Nat :=
  (List.range k).map fun i => n / 256 ^ i % 256

/-- The fixed 80-byte header encoding built by `RxWorkMiner::Mine`
(`src/pow.cpp` lines 651-656, 674) and `CheckProofOfWorkX` (lines 375-381):
little-endian `nVersion` at offset 0, raw `hashPrevBlock` at 4, raw
`hashMerkleRoot` at 36, little-endian `nTime` at 68, `nBits` at 72 and the
nonce at 76. -/
def serializeHeader80 (b : BlockHeader) (nonce : Nat) : List Nat :=
  leBytes 4 (toUInt32n b.nVersion) ++ leBytes 32 b.hashPrevBlock ++
    leBytes 32 b.hashMerkleRoot ++ leBytes 4 b.nTime ++ leBytes 4 b.nBits ++ leBytes 4 nonce

/-- Method `RxWorkMiner::sha256dKeyBlock` (`src/pow.cpp` lines 635-642) hashes the
serialization of `(nVersion, nTime/345678, nBits, uint32(0))`.

Modelled from the spec: `CHashWriter::GetHash` (`src/hash.h` is not under
`src/`).  Spec §3: the `EpochKey` is "derived deterministically from
`(version, time / EPOCH_SECONDS, bits, 0)` via a domain-separated hash of
these four fields", and the spec's distinctness scenario treats the
derivation as collision-free on these fields, so the hash is modelled as an
injective function of the four fields — the field tuple itself. -/
def sha256dKeyBlock (block : BlockHeader) : Int × Nat × Nat × Nat :=
  (block.nVersion, block.nTime / 345678, block.nBits, 0)

/-- One mining session of `RxWorkMiner::Mine` (`src/pow.cpp` lines 645-690),
parameterized by the hash engine (`randomx_calculate_hash` through the
miner's VM — an external native engine, taken as a function from the 80-byte
message to a 256-bit hash) and by the results of the successive
`ShutdownRequested()` polls (`shutdown i` is the poll at the start of
iteration `i`).  The iteration count is bounded by `fuel` to make the
possibly endless `do`-`while` loop a total function:
* `none`: the fuel ran out while the loop was still running;
* `some none`: the loop returned `false` because a poll reported shutdown;
* `some (some (hash, nonce))`: the loop returned `true` with the winning
  pair (the nonce written into byte 76 of the message, `nonce - 1` after the
  post-increment).
Iteration `i` uses nonce `(nNonce + i) % 2^32` (`uint32` increment) and the
acceptance test compares against `SetCompact(nBits, nullptr, nullptr)` —
the decoded magnitude with the negative/overflow indications discarded. -/
def Mine (engine : List Nat → Nat) (block : BlockHeader) (shutdown : Nat → Bool) :
    Nat → Nat → Option (Option (Nat × Nat))
  | 0, _ => none
  | fuel + 1, i =>
    if shutdown i then some none
    else
      let nonce := (block.nNonce + i) % 2 ^ 32
      let hash := engine (serializeHeader80 block nonce)
      if hash ≤ decodeTarget block.nBits then some (some (hash, nonce))
      else Mine engine block shutdown fuel (i + 1)

/-- The engine-pointer fields of `VerifierCtx` (`src/pow.cpp` lines 257-292):
`m_key` is the bound epoch key (`uint256`, a `Nat`), `m_cache` and `m_vm`
are the native pointers, `none` modelling `nullptr`. -/
structure VerifierCtx where
  m_key : Nat
  m_vm : Option Unit
  m_cache : Option Unit

/-- Method `VerifierCtx::reinitialize` (`src/pow.cpp` lines 265-286): if the key
differs from the bound one, release the old pair and allocate a new one.
The results of the external allocations `randomx_alloc_cache` and
`randomx_create_vm` are parameters (`none` = allocation returned null);
the source checks neither result. -/
def VerifierCtx.reinitialize (ctx : VerifierCtx) (allocCache allocVm : Option Unit)
    (key : Nat) : VerifierCtx :=
  if key ≠ ctx.m_key then { m_key := key, m_cache := allocCache, m_vm := allocVm }
  else ctx

/-- The `VerifierCtx(uint256 key)` constructor (`src/pow.cpp` line 262):
members start as `m_vm = nullptr`, `m_cache = nullptr`, `m_key = uint256()`
(all-zero), then `reinitialize(key)` runs. -/
def VerifierCtx.construct (allocCache allocVm : Option Unit) (key : Nat) : VerifierCtx :=
  VerifierCtx.reinitialize { m_key := 0, m_vm := none, m_cache := none } allocCache allocVm key

/-- The context freshly pushed onto the `RxWorkVerifier3` pool
(`src/pow.cpp` line 331): `new VerifierCtx(uint256())`, i.e. construction
with the all-zero key. -/
def poolFreshCtx (allocCache allocVm : Option Unit) : VerifierCtx :=
  VerifierCtx.construct allocCache allocVm 0

/-- The VM through which `RxWorkVerifier3::PowHash` (`src/pow.cpp` lines
343-354) computes the hash after popping `ctx` and reinitializing it with
`key`: `randomx_calculate_hash(cache->m_vm, ...)`. -/
def powHashVmUsed (ctx : VerifierCtx) (allocCache allocVm : Option Unit) (key : Nat) :
    Option Unit :=
  (ctx.reinitialize allocCache allocVm key).m_vm

/-- Claim C2's formula for `calculateNextWorkRequired`, following the spec's
words: clamp the actual timespan into `[targetTimespan/4, targetTimespan*4]`
(divisions truncating), compute
`decode(tip.bits) * (actualTimespan * 2048 / targetTimespan) / 2048` in
256-bit integer arithmetic, clamp the result to `powLimit` and re-encode. -/
def specCalculateNextWorkRequired (tip : BlockIndex) (nFirstBlockTime : Int)
    (p : ConsensusParams) : Nat :=
  if p.fPowNoRetargeting then tip.nBits
  else
    let actualTimespan : Int :=
      min (p.nPowTargetTimespan * 4)
        (max (Int.tdiv p.nPowTargetTimespan 4) (tip.nTime - nFirstBlockTime))
    let ratio : Int := Int.tdiv (actualTimespan * 2048) p.nPowTargetTimespan
    let newTarget := ((decodeTarget tip.nBits * ratio.toNat) % U256) / 2048
    encodeCompact (min newTarget p.powLimit)

/-- Claim C4's formula for `permittedDifficultyTransition`, following the
spec's words: always permitted with `allowMinDifficultyBlocks`; at a
non-retarget height permitted iff the compact values are equal; at a
retarget boundary compare the observed target against the
`encodeCompact∘decode`-re-rounded bounds `min(decode(oldBits)*4, powLimit)`
and `min(decode(oldBits)/4, powLimit)`. -/
def specPermittedDifficultyTransition (p : ConsensusParams) (height : Int)
    (old_nbits new_nbits : Nat) : Bool :=
  if p.fPowAllowMinDifficultyBlocks then true
  else if Int.tmod height p.DifficultyAdjustmentInterval ≠ 0 then old_nbits == new_nbits
  else
    let observed := decodeTarget new_nbits
    let upper := decodeTarget (encodeCompact (min (decodeTarget old_nbits * 4) p.powLimit))
    let lower := decodeTarget (encodeCompact (min (decodeTarget old_nbits / 4) p.powLimit))
    decide (observed ≤ upper ∧ lower ≤ observed)

/-! ## Theorems -/

/-- C1: `checkProofOfWork(hash, bits, params)` returns `false` when decoding
`bits` reports negative, yields a zero target, reports overflow, or yields a
target exceeding `powLimit` — regardless of `hash` — and otherwise returns
`true` iff `hash <= target` as a 256-bit unsigned comparison.  (The function
is a total Lean `Bool`-valued function, so it raises no error on any
input.) -/
theorem checkProofOfWork_spec (hash nBits : Nat) (params : ConsensusParams) :
    ((decodeNegative nBits = true ∨ decodeTarget nBits = 0 ∨ decodeOverflow nBits = true ∨
        params.powLimit < decodeTarget nBits) →
      CheckProofOfWork hash nBits params = false) ∧
    (decodeNegative nBits = false → decodeTarget nBits ≠ 0 → decodeOverflow nBits = false →
      decodeTarget nBits ≤ params.powLimit →
      (CheckProofOfWork hash nBits params = true ↔ hash ≤ decodeTarget nBits)) := by
  unfold CheckProofOfWork
  constructor
  · intro h
    rw [if_pos]
    rcases h with h | h | h | h
    · exact Or.inl h
    · exact Or.inr (Or.inl h)
    · exact Or.inr (Or.inr (Or.inl h))
    · exact Or.inr (Or.inr (Or.inr h))
  · intro h1 h2 h3 h4
    rw [if_neg]
    · split
      · next hgt => simp; omega
      · next hgt => simp; omega
    · rintro (h | h | h | h)
      · simp [h1] at h
      · exact h2 h
      · simp [h3] at h
      · omega

/-- Witness for C1 at concrete inputs. -/
theorem checkProofOfWork_spec_witness :
    CheckProofOfWork 5 0x01120000 ⟨2 ^ 224, 1209600, 600, false, false⟩ = true :=
  ((checkProofOfWork_spec 5 0x01120000 ⟨2 ^ 224, 1209600, 600, false, false⟩).2
    (by decide) (by decide) (by decide) (by decide)).mpr (by decide)

/-- C6: two headers with equal `version`, equal `bits` and equal epoch
bucket `⌊time / 345678⌋` derive the same `EpochKey`, independent of
`prevHash`, `merkleRoot` and `nonce` (the two headers are otherwise
arbitrary); and two headers identical except for times at least 400,000
seconds apart derive different `EpochKey`s. -/
theorem epochKey_spec (b1 b2 : BlockHeader) :
    (b1.nVersion = b2.nVersion → b1.nBits = b2.nBits →
      b1.nTime / 345678 = b2.nTime / 345678 →
      sha256dKeyBlock b1 = sha256dKeyBlock b2) ∧
    (b1.nVersion = b2.nVersion → b1.hashPrevBlock = b2.hashPrevBlock →
      b1.hashMerkleRoot = b2.hashMerkleRoot → b1.nBits = b2.nBits →
      b1.nNonce = b2.nNonce → b1.nTime + 400000 ≤ b2.nTime →
      sha256dKeyBlock b1 ≠ sha256dKeyBlock b2) := by
  constructor
  · intro hv hb ht
    simp [sha256dKeyBlock, hv, hb, ht]
  · intro _ _ _ _ _ ht heq
    have hbucket : b1.nTime / 345678 < b2.nTime / 345678 := by
      have h1 : b1.nTime / 345678 + 1 = (b1.nTime + 345678) / 345678 := by
        omega
      have h2 : (b1.nTime + 345678) / 345678 ≤ b2.nTime / 345678 :=
        Nat.div_le_div_right (by omega)
      omega
    have : b1.nTime / 345678 = b2.nTime / 345678 := congrArg (fun k => k.2.1) heq
    omega

/-- Witness for C6 at concrete inputs: two headers 100 seconds apart in one
epoch bucket share the key; two headers 400,000 seconds apart do not. -/
theorem epochKey_spec_witness :
    sha256dKeyBlock ⟨1, 0, 0, 1000, 0x1d00ffff, 7⟩ =
      sha256dKeyBlock ⟨1, 55, 99, 1100, 0x1d00ffff, 3⟩ ∧
    sha256dKeyBlock ⟨1, 0, 0, 1000, 0x1d00ffff, 7⟩ ≠
      sha256dKeyBlock ⟨1, 0, 0, 401000, 0x1d00ffff, 7⟩ :=
  ⟨(epochKey_spec ⟨1, 0, 0, 1000, 0x1d00ffff, 7⟩ ⟨1, 55, 99, 1100, 0x1d00ffff, 3⟩).1
      rfl rfl (by decide),
   (epochKey_spec ⟨1, 0, 0, 1000, 0x1d00ffff, 7⟩ ⟨1, 0, 0, 401000, 0x1d00ffff, 7⟩).2
      rfl rfl rfl rfl rfl (by decide)⟩

/-- C9 (code bug): every context freshly pushed onto the `RxWorkVerifier3`
pool is constructed as `VerifierCtx(uint256())`; the constructor initializes
`m_key` to the all-zero `uint256()` and then calls `reinitialize(uint256())`,
whose `key != m_key` guard sees equal keys and does nothing — even when the
native allocations would succeed, the pool retains and dispenses a context
whose (cache, VM) pair is null, and a `PowHash` call with the all-zero key
computes the hash through a null VM.  This contradicts the claim that a
dispensed context always carries a non-null engine pair. -/
theorem verifierPool_dispenses_null_ctx :
    poolFreshCtx (some ()) (some ()) = { m_key := 0, m_vm := none, m_cache := none } ∧
    powHashVmUsed (poolFreshCtx (some ()) (some ())) (some ()) (some ()) 0 = none := by
  constructor <;> rfl

/-- Helper: the mining loop returns the no-result outcome `some none` as
soon as a shutdown poll reports `true`, provided no earlier iteration's hash
met the target; it does so within `k + 1` iterations. -/
theorem mine_cancel_aux (engine : List Nat → Nat) (block : BlockHeader)
    (shutdown : Nat → Bool) :
    ∀ fuel i k, k < fuel → shutdown (i + k) = true →
      (∀ j < k, decodeTarget block.nBits <
        engine (serializeHeader80 block ((block.nNonce + (i + j)) % 2 ^ 32))) →
      Mine engine block shutdown fuel i = some none := by
  intro fuel
  induction fuel with
  | zero => intro i k hk _ _; omega
  | succ f ih =>
    intro i k hk hstop hfail
    by_cases hs : shutdown i = true
    · simp [Mine, hs]
    · have hk0 : k ≠ 0 := by
        intro h
        rw [h, Nat.add_zero] at hstop
        exact hs hstop
      have hfail0 := hfail 0 (by omega)
      rw [Nat.add_zero] at hfail0
      have hrec : Mine engine block shutdown f (i + 1) = some none := by
        refine ih (i + 1) (k - 1) (by omega) ?_ ?_
        · have : i + 1 + (k - 1) = i + k := by omega
          rw [this]
          exact hstop
        · intro j hj
          have : i + 1 + j = i + (j + 1) := by omega
          rw [this]
          exact hfail (j + 1) (by omega)
      simp only [Mine, hs, if_false, Bool.false_eq_true]
      rw [if_neg (by omega)]
      exact hrec

/-- Helper: any successful outcome of the mining loop carries the engine
hash of the 80-byte message with the returned nonce in the nonce field, and
that hash is at most the magnitude decoded from `nBits`. -/
theorem mine_success_aux (engine : List Nat → Nat) (block : BlockHeader)
    (shutdown : Nat → Bool) :
    ∀ fuel i h n, Mine engine block shutdown fuel i = some (some (h, n)) →
      h = engine (serializeHeader80 block n) ∧ h ≤ decodeTarget block.nBits := by
  intro fuel
  induction fuel with
  | zero => intro i h n hrun; simp [Mine] at hrun
  | succ f ih =>
    intro i h n hrun
    by_cases hs : shutdown i = true
    · simp [Mine, hs] at hrun
    · simp only [Mine, hs, if_false, Bool.false_eq_true] at hrun
      by_cases hhit :
          engine (serializeHeader80 block ((block.nNonce + i) % 2 ^ 32)) ≤
            decodeTarget block.nBits
      · rw [if_pos hhit] at hrun
        have h1 : engine (serializeHeader80 block ((block.nNonce + i) % 2 ^ 32)) = h ∧
            (block.nNonce + i) % 2 ^ 32 = n := by
          have := hrun
          simp only [Option.some.injEq, Prod.mk.injEq] at this
          exact this
        obtain ⟨hh, hn⟩ := h1
        subst hn
        constructor
        · omega
        · omega
      · rw [if_neg hhit] at hrun
        exact ih (i + 1) h n hrun

/-- C7: if the `shutdownRequested` predicate evaluates `true` at the poll
preceding a nonce iteration — in particular before any nonce satisfying the
target is found — `mine` returns the no-result outcome `some none` (a normal
return, never a winning pair) for every sufficient fuel, so it does not
block indefinitely; and the run consults only the polls `0..k`, one per
nonce iteration: any predicate agreeing on those polls yields the same
no-result within exactly `k + 1` iterations. -/
theorem mine_cancellation (engine : List Nat → Nat) (block : BlockHeader)
    (shutdown : Nat → Bool) (k : Nat)
    (hfail : ∀ j < k, decodeTarget block.nBits <
      engine (serializeHeader80 block ((block.nNonce + j) % 2 ^ 32)))
    (hstop : shutdown k = true) :
    (∀ fuel, k < fuel → Mine engine block shutdown fuel 0 = some none) ∧
    (∀ shutdown' : Nat → Bool, (∀ j ≤ k, shutdown' j = shutdown j) →
      Mine engine block shutdown' (k + 1) 0 = some none) := by
  constructor
  · intro fuel hfuel
    refine mine_cancel_aux engine block shutdown fuel 0 k hfuel ?_ ?_
    · rw [Nat.zero_add]; exact hstop
    · intro j hj; rw [Nat.zero_add]; exact hfail j hj
  · intro shutdown' hagree
    refine mine_cancel_aux engine block shutdown' (k + 1) 0 k (by omega) ?_ ?_
    · rw [Nat.zero_add, hagree k (by omega)]; exact hstop
    · intro j hj; rw [Nat.zero_add]; exact hfail j hj

/-- Witness for C7 at concrete inputs: a predicate true at the very first
poll makes `mine` return the no-result outcome in one iteration. -/
theorem mine_cancellation_witness :
    Mine (fun _ => 0) ⟨1, 0, 0, 0, 0x01010000, 0⟩ (fun _ => true) 1 0 = some none :=
  (mine_cancellation (fun _ => 0) ⟨1, 0, 0, 0, 0x01010000, 0⟩ (fun _ => true) 0
    (fun j hj => absurd hj (Nat.not_lt_zero j)) rfl).1 1 (by decide)

/-- C8: when `mine` returns a successful `(hash, nonce)`, the hash equals
the engine hash of the fixed 80-byte header encoding with the returned
nonce substituted in the nonce field, and the hash is at most the target
decoded from the template's `bits`; the encoding is 80 bytes long. -/
theorem mine_success_spec (engine : List Nat → Nat) (block : BlockHeader)
    (shutdown : Nat → Bool) (fuel i h n : Nat)
    (hrun : Mine engine block shutdown fuel i = some (some (h, n))) :
    h = engine (serializeHeader80 block n) ∧ h ≤ decodeTarget block.nBits ∧
      (serializeHeader80 block n).length = 80 := by
  obtain ⟨h1, h2⟩ := mine_success_aux engine block shutdown fuel i h n hrun
  refine ⟨h1, h2, ?_⟩
  simp [serializeHeader80, leBytes]

/-- Witness for C8 at concrete inputs. -/
theorem mine_success_spec_witness :
    (0 : Nat) = 0 ∧ (0 : Nat) ≤ decodeTarget 0x01010000 ∧
      (serializeHeader80 ⟨1, 0, 0, 0, 0x01010000, 0⟩ 0).length = 80 :=
  mine_success_spec (fun _ => 0) ⟨1, 0, 0, 0, 0x01010000, 0⟩ (fun _ => false) 1 0 0 0
    (by decide)

/-- C10: `mine` performs no range validation on the template's compact
target — any successful hash is only guaranteed to be at most the decoded
magnitude (negative/overflow indications discarded) — and concretely, with
`bits = 0x03800001` (sign bit set) a constant-zero engine makes `mine`
report success while `checkProofOfWork` rejects that very hash as
negative. -/
theorem mine_no_range_validation :
    (∀ (engine : List Nat → Nat) (block : BlockHeader) (shutdown : Nat → Bool) (fuel i h n : Nat),
      Mine engine block shutdown fuel i = some (some (h, n)) →
        h ≤ decodeTarget block.nBits) ∧
    (Mine (fun _ => 0) ⟨1, 0, 0, 0, 0x03800001, 0⟩ (fun _ => false) 1 0 = some (some (0, 0)) ∧
      decodeNegative 0x03800001 = true ∧
      CheckProofOfWork 0 0x03800001 ⟨2 ^ 224, 1209600, 600, false, false⟩ = false) := by
  constructor
  · intro engine block shutdown fuel i h n hrun
    exact (mine_success_aux engine block shutdown fuel i h n hrun).2
  · refine ⟨by decide, by decide, by decide⟩

/-- Witness for C10's universally quantified conjunct at concrete inputs. -/
theorem mine_no_range_validation_witness :
    (0 : Nat) ≤ decodeTarget (⟨1, 0, 0, 0, 0x03800001, 0⟩ : BlockHeader).nBits :=
  mine_no_range_validation.1 (fun _ => 0) ⟨1, 0, 0, 0, 0x03800001, 0⟩ (fun _ => false) 1 0 0 0
    (by decide)

/-- Helper: the source's clamp-low-then-clamp-high sequence equals the
`min`/`max` form of "clamped into `[lo, hi]`". -/
theorem clamp_eq (a0 lo hi : Int) :
    (if (if a0 < lo then lo else a0) > hi then hi
      else if a0 < lo then lo else a0) = min hi (max lo a0) := by
  split_ifs <;> omega

/-- Helper: the source's clamp-to-`powLimit` conditional is a `min`. -/
theorem powLimitClamp_eq (x pl : Nat) : (if x > pl then pl else x) = min x pl := by
  split_ifs <;> omega

/-- Helper: after the clamp, the timespan ratio is in `[0, 8192]` whatever
the sign of the configured timespan, so its conversion to `uint32` is
exact. -/
theorem toUInt32n_clampFactor (T a0 : Int) :
    toUInt32n (Int.tdiv (min (T * 4) (max (Int.tdiv T 4) a0) * 2048) T) =
      (Int.tdiv (min (T * 4) (max (Int.tdiv T 4) a0) * 2048) T).toNat := by
  rcases lt_trichotomy T 0 with hneg | hzero | hpos
  · -- negative timespan: the clamp always lands on T*4 and the ratio is 8192
    have hS : Int.tdiv T 4 = -(Int.tdiv (-T) 4) := by
      rw [← Int.neg_tdiv, neg_neg]
    have hS1 : 0 ≤ Int.tdiv (-T) 4 := Int.tdiv_nonneg (by omega) (by norm_num)
    have hS2 : Int.tdiv (-T) 4 ≤ -T := by
      rw [Int.tdiv_eq_ediv (by omega) (by norm_num)]
      exact Int.ediv_le_self 4 (by omega)
    have ha : min (T * 4) (max (Int.tdiv T 4) a0) = T * 4 := by omega
    rw [ha, show T * 4 * 2048 = T * 8192 from by ring,
      Int.mul_tdiv_cancel_left 8192 (by omega)]
    decide
  · subst hzero
    rw [Int.tdiv_zero]
    decide
  · have hlo : 0 ≤ Int.tdiv T 4 := Int.tdiv_nonneg (by omega) (by norm_num)
    have h0 : 0 ≤ min (T * 4) (max (Int.tdiv T 4) a0) := by omega
    have hhi : min (T * 4) (max (Int.tdiv T 4) a0) ≤ T * 4 := by omega
    have h1 : 0 ≤ Int.tdiv (min (T * 4) (max (Int.tdiv T 4) a0) * 2048) T :=
      Int.tdiv_nonneg (by positivity) (by omega)
    have h2 : Int.tdiv (min (T * 4) (max (Int.tdiv T 4) a0) * 2048) T ≤ 8192 := by
      rw [Int.tdiv_eq_ediv (by positivity) (by omega)]
      calc min (T * 4) (max (Int.tdiv T 4) a0) * 2048 / T ≤ (T * 8192) / T :=
            Int.ediv_le_ediv hpos (by omega)
        _ = 8192 := Int.mul_ediv_cancel_left _ (by omega)
    unfold toUInt32n
    congr 1
    refine Int.emod_eq_of_lt h1 ?_
    push_cast
    omega

/-- C2: for positive `targetTimespan`, `calculateNextWorkRequired` computes
exactly the spec's formula — actual timespan clamped into
`[targetTimespan/4, targetTimespan*4]`, then
`decode(tip.bits) * (actualTimespan * 2048 / targetTimespan) / 2048` in
256-bit integer arithmetic with truncating divisions, clamped to `powLimit`
and re-encoded — and returns `tip.bits` unchanged when `noRetargeting`. -/
theorem calculateNextWorkRequired_spec (tip : BlockIndex) (nFirstBlockTime : Int)
    (p : ConsensusParams) :
    CalculateNextWorkRequired tip nFirstBlockTime p =
      specCalculateNextWorkRequired tip nFirstBlockTime p := by
  by_cases hnr : p.fPowNoRetargeting = true
  · simp [CalculateNextWorkRequired, specCalculateNextWorkRequired, hnr]
  · simp only [CalculateNextWorkRequired, specCalculateNextWorkRequired, hnr,
      Bool.false_eq_true, if_false, clamp_eq, powLimitClamp_eq, toUInt32n_clampFactor]

/-- Helper: `Nat.size` from a two-sided power bound. -/
theorem size_char {n y : Nat} (h1 : 2 ^ n ≤ y) (h2 : y < 2 ^ (n + 1)) :
    Nat.size y = n + 1 :=
  le_antisymm (Nat.size_le.mpr h2) (Nat.lt_size.mpr h1)

/-- Helper: the bounded bit scan agrees with `Nat.size` on its domain. -/
theorem bitsLoop_eq_size : ∀ n x, x < 2 ^ n → bitsLoop n x = Nat.size x := by
  intro n
  induction n with
  | zero =>
    intro x hx
    have : x = 0 := by omega
    simp [this, bitsLoop, Nat.size_zero]
  | succ k ih =>
    intro x hx
    by_cases h : 2 ^ k ≤ x
    · simp only [bitsLoop, if_pos h]
      exact (size_char h hx).symm
    · simp only [bitsLoop, if_neg h]
      exact ih x (by omega)

/-- Helper: on 256-bit values, `bits256` is `Nat.size`. -/
theorem bits256_eq_size (x : Nat) (hx : x < U256) : bits256 x = Nat.size x :=
  bitsLoop_eq_size 256 x hx

/-- Helper: `encodeCompact` unfolded on a 256-bit value (the two lets
zeta-reduced, the bit scan expressed via `Nat.size`). -/
theorem encodeCompact_eq (x : Nat) (hxU : x < U256) :
    encodeCompact x =
      if 2 ^ 23 ≤ (if (Nat.size x + 7) / 8 ≤ 3 then x * 2 ^ (8 * (3 - (Nat.size x + 7) / 8))
          else x / 2 ^ (8 * ((Nat.size x + 7) / 8 - 3))) then
        (if (Nat.size x + 7) / 8 ≤ 3 then x * 2 ^ (8 * (3 - (Nat.size x + 7) / 8))
          else x / 2 ^ (8 * ((Nat.size x + 7) / 8 - 3))) / 2 ^ 8 +
          ((Nat.size x + 7) / 8 + 1) * 2 ^ 24
      else
        (if (Nat.size x + 7) / 8 ≤ 3 then x * 2 ^ (8 * (3 - (Nat.size x + 7) / 8))
          else x / 2 ^ (8 * ((Nat.size x + 7) / 8 - 3))) + (Nat.size x + 7) / 8 * 2 ^ 24 := by
  simp only [encodeCompact, bits256_eq_size x hxU]

/-- Helper: `decodeTarget` on a compact value in normalized mantissa +
exponent form. -/
theorem decode_norm (m s : Nat) (hm : m < 2 ^ 23) :
    decodeTarget (m + s * 2 ^ 24) =
      if s ≤ 3 then m / 2 ^ (8 * (3 - s)) else (m * 2 ^ (8 * (s - 3))) % U256 := by
  unfold decodeTarget
  have h24 : (0:Nat) < 2 ^ 24 := Nat.pos_pow_of_pos 24 (by norm_num)
  have h1 : (m + s * 2 ^ 24) / 2 ^ 24 = s := by
    rw [Nat.add_mul_div_right m s h24, Nat.div_eq_of_lt (lt_trans hm (by norm_num))]
    omega
  have h2 : (m + s * 2 ^ 24) % 2 ^ 23 = m := by
    have : m + s * 2 ^ 24 = m + (s * 2) * 2 ^ 23 := by ring
    rw [this, Nat.add_mul_mod_self_right, Nat.mod_eq_of_lt hm]
  rw [h1, h2]

/-- Helper: for `0 < x < 2^256`, `encodeCompact x` has the normalized shape
`m + s * 2^24` with a sign-bit-free mantissa `m ∈ [2^15, 2^23)`, whose
decoding does not truncate away from representability (the divisibility /
bound side conditions) and is at most `x`. -/
theorem encode_shape (x : Nat) (hx0 : 0 < x) (hxU : x < U256) :
    ∃ m s, encodeCompact x = m + s * 2 ^ 24 ∧ 2 ^ 15 ≤ m ∧ m < 2 ^ 23 ∧ 1 ≤ s ∧
      (s ≤ 3 → 2 ^ (8 * (3 - s)) ∣ m) ∧
      (3 < s → m * 2 ^ (8 * (s - 3)) < U256) ∧
      decodeTarget (m + s * 2 ^ 24) ≤ x := by
  have hB1 : 1 ≤ Nat.size x := Nat.size_pos.mpr hx0
  have hxlow : 2 ^ (Nat.size x - 1) ≤ x := Nat.lt_size.mp (by omega)
  have hxhigh : x < 2 ^ Nat.size x := Nat.lt_size_self x
  set B := Nat.size x with hB
  set s0 := (B + 7) / 8 with hs0def
  have hs0low : 8 * s0 - 7 ≤ B := by omega
  have hs0high : B ≤ 8 * s0 := by omega
  have hs01 : 1 ≤ s0 := by omega
  by_cases hc : s0 ≤ 3
  · -- small sizes: the mantissa is x shifted left
    have hklow : (2:Nat) ^ (8 * s0 - 8) ≤ x :=
      le_trans (Nat.pow_le_pow_right (by norm_num) (by omega)) hxlow
    have hMlow : 2 ^ 16 ≤ x * 2 ^ (8 * (3 - s0)) := by
      calc (2:Nat) ^ 16 = 2 ^ (8 * s0 - 8) * 2 ^ (8 * (3 - s0)) := by
            rw [← pow_add]; congr 1; omega
        _ ≤ x * 2 ^ (8 * (3 - s0)) := Nat.mul_le_mul_right _ hklow
    have hMhigh : x * 2 ^ (8 * (3 - s0)) < 2 ^ 24 := by
      calc x * 2 ^ (8 * (3 - s0)) < 2 ^ B * 2 ^ (8 * (3 - s0)) :=
            (Nat.mul_lt_mul_right (Nat.pos_pow_of_pos _ (by norm_num))).mpr hxhigh
        _ ≤ 2 ^ (8 * s0) * 2 ^ (8 * (3 - s0)) :=
            Nat.mul_le_mul_right _ (Nat.pow_le_pow_right (by norm_num) hs0high)
        _ = 2 ^ 24 := by rw [← pow_add]; congr 1; omega
    have hMsel : (if s0 ≤ 3 then x * 2 ^ (8 * (3 - s0)) else x / 2 ^ (8 * (s0 - 3))) =
        x * 2 ^ (8 * (3 - s0)) := if_pos hc
    rw [encodeCompact_eq x hxU, ← hB, ← hs0def, hMsel]
    by_cases hfix : 2 ^ 23 ≤ x * 2 ^ (8 * (3 - s0))
    · rw [if_pos hfix]
      have hm23 : x * 2 ^ (8 * (3 - s0)) / 2 ^ 8 < 2 ^ 23 := by
        have h16 : x * 2 ^ (8 * (3 - s0)) / 2 ^ 8 < 2 ^ 16 :=
          (Nat.div_lt_iff_lt_mul (by norm_num)).mpr (by
            calc x * 2 ^ (8 * (3 - s0)) < 2 ^ 24 := hMhigh
              _ = 2 ^ 16 * 2 ^ 8 := by norm_num)
        exact lt_of_lt_of_le h16 (by norm_num)
      refine ⟨x * 2 ^ (8 * (3 - s0)) / 2 ^ 8, s0 + 1, rfl, ?_, hm23, by omega, ?_, ?_, ?_⟩
      · exact (Nat.le_div_iff_mul_le (by norm_num)).mpr (le_trans (by norm_num) hfix)
      · intro hs3
        have he : x * 2 ^ (8 * (3 - s0)) / 2 ^ 8 = x * 2 ^ (8 * (2 - s0)) := by
          rw [show 8 * (3 - s0) = 8 * (2 - s0) + 8 by omega, pow_add, ← Nat.mul_assoc,
            Nat.mul_div_cancel _ (by norm_num)]
        rw [he, show 8 * (3 - (s0 + 1)) = 8 * (2 - s0) by omega]
        exact dvd_mul_left _ x
      · intro hs4
        have hs03 : s0 = 3 := by omega
        have : x * 2 ^ (8 * (3 - s0)) / 2 ^ 8 * 2 ^ (8 * (s0 + 1 - 3)) ≤
            x * 2 ^ (8 * (3 - s0)) := by
          rw [show 8 * (s0 + 1 - 3) = 8 from by omega]
          exact Nat.div_mul_le_self _ _
        calc x * 2 ^ (8 * (3 - s0)) / 2 ^ 8 * 2 ^ (8 * (s0 + 1 - 3)) ≤
              x * 2 ^ (8 * (3 - s0)) := this
          _ < 2 ^ 24 := hMhigh
          _ < U256 := by norm_num [U256]
      · rw [decode_norm _ _ hm23]
        by_cases hs3 : s0 + 1 ≤ 3
        · rw [if_pos hs3]
          have he : x * 2 ^ (8 * (3 - s0)) / 2 ^ 8 = x * 2 ^ (8 * (2 - s0)) := by
            rw [show 8 * (3 - s0) = 8 * (2 - s0) + 8 by omega, pow_add, ← Nat.mul_assoc,
              Nat.mul_div_cancel _ (by norm_num)]
          rw [he, show 8 * (3 - (s0 + 1)) = 8 * (2 - s0) by omega,
            Nat.mul_div_cancel _ (Nat.pos_pow_of_pos _ (by norm_num))]
        · rw [if_neg hs3]
          have hz : 8 * (3 - s0) = 0 := by omega
          have h8 : 8 * (s0 + 1 - 3) = 8 := by omega
          rw [hz] at hMhigh
          rw [hz, h8]
          have hle : x * 2 ^ 0 / 2 ^ 8 * 2 ^ 8 ≤ x * 2 ^ 0 := Nat.div_mul_le_self _ _
          rw [Nat.mod_eq_of_lt (lt_trans (lt_of_le_of_lt hle hMhigh) (by norm_num [U256]))]
          calc x * 2 ^ 0 / 2 ^ 8 * 2 ^ 8 ≤ x * 2 ^ 0 := hle
            _ = x := by norm_num
    · rw [if_neg hfix]
      push_neg at hfix
      refine ⟨x * 2 ^ (8 * (3 - s0)), s0, rfl, le_trans (by norm_num) hMlow, hfix, hs01,
        fun _ => dvd_mul_left _ x, by omega, ?_⟩
      rw [decode_norm _ _ hfix, if_pos hc,
        Nat.mul_div_cancel _ (Nat.pos_pow_of_pos _ (by norm_num))]
  · -- large sizes: the mantissa is x shifted right
    push_neg at hc
    have hMlow : 2 ^ 16 ≤ x / 2 ^ (8 * (s0 - 3)) := by
      refine (Nat.le_div_iff_mul_le (Nat.pos_pow_of_pos _ (by norm_num))).mpr ?_
      calc (2:Nat) ^ 16 * 2 ^ (8 * (s0 - 3)) = 2 ^ (8 * s0 - 8) := by
            rw [← pow_add]; congr 1; omega
        _ ≤ 2 ^ (B - 1) := Nat.pow_le_pow_right (by norm_num) (by omega)
        _ ≤ x := hxlow
    have hMhigh : x / 2 ^ (8 * (s0 - 3)) < 2 ^ 24 := by
      refine (Nat.div_lt_iff_lt_mul (Nat.pos_pow_of_pos _ (by norm_num))).mpr ?_
      calc x < 2 ^ B := hxhigh
        _ ≤ 2 ^ (8 * s0) := Nat.pow_le_pow_right (by norm_num) hs0high
        _ = 2 ^ 24 * 2 ^ (8 * (s0 - 3)) := by rw [← pow_add]; congr 1; omega
    have hMle : x / 2 ^ (8 * (s0 - 3)) * 2 ^ (8 * (s0 - 3)) ≤ x := Nat.div_mul_le_self _ _
    have hMsel : (if s0 ≤ 3 then x * 2 ^ (8 * (3 - s0)) else x / 2 ^ (8 * (s0 - 3))) =
        x / 2 ^ (8 * (s0 - 3)) := if_neg (by omega)
    rw [encodeCompact_eq x hxU, ← hB, ← hs0def, hMsel]
    by_cases hfix : 2 ^ 23 ≤ x / 2 ^ (8 * (s0 - 3))
    · rw [if_pos hfix]
      have hm23 : x / 2 ^ (8 * (s0 - 3)) / 2 ^ 8 < 2 ^ 23 := by
        have h16 : x / 2 ^ (8 * (s0 - 3)) / 2 ^ 8 < 2 ^ 16 :=
          (Nat.div_lt_iff_lt_mul (by norm_num)).mpr
            (lt_of_lt_of_le hMhigh (by norm_num))
        exact lt_of_lt_of_le h16 (by norm_num)
      have hbnd : x / 2 ^ (8 * (s0 - 3)) / 2 ^ 8 * 2 ^ (8 * (s0 + 1 - 3)) ≤ x := by
        calc x / 2 ^ (8 * (s0 - 3)) / 2 ^ 8 * 2 ^ (8 * (s0 + 1 - 3)) =
              x / 2 ^ (8 * (s0 - 3)) / 2 ^ 8 * 2 ^ 8 * 2 ^ (8 * (s0 - 3)) := by
              rw [Nat.mul_assoc, ← pow_add]; congr 2; omega
          _ ≤ x / 2 ^ (8 * (s0 - 3)) * 2 ^ (8 * (s0 - 3)) :=
              Nat.mul_le_mul_right _ (Nat.div_mul_le_self _ _)
          _ ≤ x := hMle
      refine ⟨x / 2 ^ (8 * (s0 - 3)) / 2 ^ 8, s0 + 1, rfl, ?_, hm23, by omega,
        by omega, fun _ => lt_of_le_of_lt hbnd hxU, ?_⟩
      · exact (Nat.le_div_iff_mul_le (by norm_num)).mpr (le_trans (by norm_num) hfix)
      · rw [decode_norm _ _ hm23, if_neg (by omega),
          Nat.mod_eq_of_lt (lt_of_le_of_lt hbnd hxU)]
        exact hbnd
    · rw [if_neg hfix]
      push_neg at hfix
      refine ⟨x / 2 ^ (8 * (s0 - 3)), s0, rfl, le_trans (by norm_num) hMlow, hfix,
        by omega, by omega, fun _ => lt_of_le_of_lt hMle hxU, ?_⟩
      rw [decode_norm _ _ hfix, if_neg (by omega), Nat.mod_eq_of_lt (lt_of_le_of_lt hMle hxU)]
      exact hMle

/-- Helper: re-encoding the decoding of a normalized compact value
`m + s * 2^24` (sign-bit-free mantissa, no truncation beyond the 256-bit
range) gives the value back. -/
theorem encode_norm (m s : Nat) (h15 : 2 ^ 15 ≤ m) (h23 : m < 2 ^ 23) (hs1 : 1 ≤ s)
    (hdvd : s ≤ 3 → 2 ^ (8 * (3 - s)) ∣ m)
    (hbound : 3 < s → m * 2 ^ (8 * (s - 3)) < U256) :
    encodeCompact (decodeTarget (m + s * 2 ^ 24)) = m + s * 2 ^ 24 := by
  have ht16 : 16 ≤ Nat.size m := Nat.lt_size.mpr h15
  have ht23 : Nat.size m ≤ 23 := Nat.size_le.mpr h23
  have hm2 : m < 2 ^ Nat.size m := Nat.lt_size_self m
  have hm1 : 2 ^ (Nat.size m - 1) ≤ m := Nat.lt_size.mp (by omega)
  rw [decode_norm m s h23]
  by_cases hsle : s ≤ 3
  · rw [if_pos hsle]
    have hd := hdvd hsle
    have ht17 : s = 1 → 17 ≤ Nat.size m := by
      intro h1
      rw [h1] at hd
      norm_num at hd
      exact Nat.lt_size.mpr (Nat.le_of_dvd (by omega) hd)
    have hele : 8 * (3 - s) ≤ Nat.size m - 1 := by
      by_cases h1 : s = 1
      · have := ht17 h1; omega
      · omega
    obtain ⟨y, hy⟩ := hd
    have hym : y * 2 ^ (8 * (3 - s)) = m := by rw [hy]; ring
    have hdivy : m / 2 ^ (8 * (3 - s)) = y := by
      rw [hy, Nat.mul_div_cancel_left _ (Nat.pos_pow_of_pos _ (by norm_num))]
    have hylow : 2 ^ (Nat.size m - 1 - 8 * (3 - s)) ≤ y := by
      refine Nat.le_of_mul_le_mul_right ?_ (Nat.two_pow_pos (8 * (3 - s)))
      calc 2 ^ (Nat.size m - 1 - 8 * (3 - s)) * 2 ^ (8 * (3 - s)) =
            2 ^ (Nat.size m - 1) := by rw [← pow_add]; congr 1; omega
        _ ≤ m := hm1
        _ = y * 2 ^ (8 * (3 - s)) := hym.symm
    have hyhigh : y < 2 ^ (Nat.size m - 8 * (3 - s)) := by
      refine Nat.lt_of_mul_lt_mul_right (a := 2 ^ (8 * (3 - s))) ?_
      calc y * 2 ^ (8 * (3 - s)) = m := hym
        _ < 2 ^ Nat.size m := hm2
        _ = 2 ^ (Nat.size m - 8 * (3 - s)) * 2 ^ (8 * (3 - s)) := by
            rw [← pow_add]; congr 1; omega
    have hsizey : Nat.size y = Nat.size m - 8 * (3 - s) := by
      have := size_char hylow (by
        rw [show Nat.size m - 1 - 8 * (3 - s) + 1 = Nat.size m - 8 * (3 - s) from by omega]
        exact hyhigh)
      omega
    have hyU : y < U256 := by
      have hle : y ≤ m := by
        have h := Nat.div_le_self m (2 ^ (8 * (3 - s)))
        rw [hdivy] at h
        exact h
      exact lt_of_le_of_lt hle (lt_trans h23 (by norm_num [U256]))
    rw [hdivy, encodeCompact_eq y hyU, hsizey]
    by_cases ht : Nat.size m = 16
    · have hs2 : 2 ≤ s := by
        by_cases h1 : s = 1
        · have := ht17 h1; omega
        · omega
      have hs0' : (Nat.size m - 8 * (3 - s) + 7) / 8 = s - 1 := by omega
      rw [hs0', if_pos (show s - 1 ≤ 3 by omega)]
      have hM' : y * 2 ^ (8 * (3 - (s - 1))) = m * 2 ^ 8 := by
        rw [show 8 * (3 - (s - 1)) = 8 * (3 - s) + 8 from by omega, pow_add, ← Nat.mul_assoc,
          hym]
      rw [hM']
      have hfix : 2 ^ 23 ≤ m * 2 ^ 8 := by
        calc (2:Nat) ^ 23 = 2 ^ 15 * 2 ^ 8 := by norm_num
          _ ≤ m * 2 ^ 8 := Nat.mul_le_mul_right _ h15
      rw [if_pos hfix, Nat.mul_div_cancel _ (by norm_num : (0:Nat) < 2 ^ 8),
        show s - 1 + 1 = s from by omega]
    · have hs0' : (Nat.size m - 8 * (3 - s) + 7) / 8 = s := by
        have h17 : 17 ≤ Nat.size m := by omega
        by_cases h1 : s = 1
        · rw [h1]; omega
        · omega
      rw [hs0', if_pos hsle, hym, if_neg (by omega : ¬ 2 ^ 23 ≤ m)]
  · rw [if_neg hsle]
    push_neg at hsle
    have hb := hbound hsle
    rw [Nat.mod_eq_of_lt hb]
    have hylow : 2 ^ (Nat.size m - 1 + 8 * (s - 3)) ≤ m * 2 ^ (8 * (s - 3)) := by
      rw [pow_add]
      exact Nat.mul_le_mul_right _ hm1
    have hyhigh : m * 2 ^ (8 * (s - 3)) < 2 ^ (Nat.size m + 8 * (s - 3)) := by
      rw [pow_add]
      exact (Nat.mul_lt_mul_right (Nat.pos_pow_of_pos _ (by norm_num))).mpr hm2
    have hsizey : Nat.size (m * 2 ^ (8 * (s - 3))) = Nat.size m + 8 * (s - 3) := by
      have := size_char hylow (by
        rw [show Nat.size m - 1 + 8 * (s - 3) + 1 = Nat.size m + 8 * (s - 3) from by omega]
        exact hyhigh)
      omega
    rw [encodeCompact_eq _ hb, hsizey]
    have hfix8 : 2 ^ 23 ≤ m * 2 ^ 8 := by
      calc (2:Nat) ^ 23 = 2 ^ 15 * 2 ^ 8 := by norm_num
        _ ≤ m * 2 ^ 8 := Nat.mul_le_mul_right _ h15
    by_cases ht : Nat.size m = 16
    · have hs0' : (Nat.size m + 8 * (s - 3) + 7) / 8 = s - 1 := by omega
      rw [hs0']
      by_cases hs4 : s - 1 ≤ 3
      · rw [if_pos hs4, show 8 * (3 - (s - 1)) = 0 from by omega, pow_zero, Nat.mul_one,
          show 8 * (s - 3) = 8 from by omega]
        rw [if_pos hfix8, Nat.mul_div_cancel _ (by norm_num : (0:Nat) < 2 ^ 8),
          show s - 1 + 1 = s from by omega]
      · rw [if_neg hs4]
        have hM' : m * 2 ^ (8 * (s - 3)) / 2 ^ (8 * (s - 1 - 3)) = m * 2 ^ 8 := by
          rw [show 8 * (s - 3) = 8 + 8 * (s - 1 - 3) from by omega, pow_add, ← Nat.mul_assoc,
            Nat.mul_div_cancel _ (Nat.pos_pow_of_pos _ (by norm_num))]
        rw [hM', if_pos hfix8, Nat.mul_div_cancel _ (by norm_num : (0:Nat) < 2 ^ 8),
          show s - 1 + 1 = s from by omega]
    · have hs0' : (Nat.size m + 8 * (s - 3) + 7) / 8 = s := by omega
      rw [hs0', if_neg (by omega : ¬ (s ≤ 3)),
        Nat.mul_div_cancel _ (Nat.pos_pow_of_pos _ (by norm_num)),
        if_neg (by omega : ¬ 2 ^ 23 ≤ m)]

set_option maxRecDepth 40000 in
/-- Helper: the compact encoding only drops low mantissa bits, so decoding
the encoding of a 256-bit value never exceeds the value. -/
theorem decode_encode_le (x : Nat) (hx : x < U256) : decodeTarget (encodeCompact x) ≤ x := by
  rcases Nat.eq_zero_or_pos x with h0 | h0
  · subst h0
    decide
  · obtain ⟨m, s, henc, _, _, _, _, _, hle⟩ := encode_shape x h0 hx
    rw [henc]
    exact hle

set_option maxRecDepth 40000 in
/-- C5: on every compact value in the image of `encodeCompact` (over the
256-bit domain), the encode-after-decode round trip is the identity. -/
theorem encodeCompact_roundtrip (bits : Nat)
    (h : ∃ x, x < U256 ∧ encodeCompact x = bits) :
    encodeCompact (decodeTarget bits) = bits := by
  obtain ⟨x, hxU, hx⟩ := h
  subst hx
  rcases Nat.eq_zero_or_pos x with h0 | h0
  · subst h0
    decide
  · obtain ⟨m, s, henc, h15, h23, hs1, hdvd, hbound, _⟩ := encode_shape x h0 hxU
    rw [henc]
    exact encode_norm m s h15 h23 hs1 hdvd hbound

set_option maxRecDepth 40000 in
/-- Witness for C5 at a concrete canonical compact value. -/
theorem encodeCompact_roundtrip_witness :
    encodeCompact (decodeTarget 0x05009234) = 0x05009234 :=
  encodeCompact_roundtrip 0x05009234 ⟨0x92340000, by decide, by decide⟩

/-- C3 counterexample: with `noRetargeting` set, `calculateNextWorkRequired`
returns `tip.bits` unchanged, and its decoded target (here 1) exceeds the
chain's `powLimit` (here 0), so the result is not always `≤ powLimit`. -/
theorem calculateNextWork_powLimit_counterexample :
    (⟨0, 1209600, 600, false, true⟩ : ConsensusParams).powLimit <
      decodeTarget
        (CalculateNextWorkRequired ⟨0, 0, 0x01010000⟩ 0 ⟨0, 1209600, 600, false, true⟩) := by
  decide

/-- C3 (amended): for every tip, `firstBlockTime` and params with
`noRetargeting` false, the compact value returned by
`calculateNextWorkRequired` decodes to a target at most `powLimit`. -/
theorem calculateNextWork_le_powLimit (tip : BlockIndex) (nFirstBlockTime : Int)
    (p : ConsensusParams) (hnr : p.fPowNoRetargeting = false) (hpl : p.powLimit < U256) :
    decodeTarget (CalculateNextWorkRequired tip nFirstBlockTime p) ≤ p.powLimit := by
  have key : ∀ z : Nat, z ≤ p.powLimit → decodeTarget (encodeCompact z) ≤ p.powLimit :=
    fun z hz => le_trans (decode_encode_le z (lt_of_le_of_lt hz hpl)) hz
  have clampLe : ∀ a b : Nat, (if a > b then b else a) ≤ b := by
    intro a b
    split <;> omega
  simp only [CalculateNextWorkRequired, hnr, Bool.false_eq_true, if_false]
  exact key _ (clampLe _ _)

/-- Witness for the amended C3 at concrete inputs. -/
theorem calculateNextWork_le_powLimit_witness :
    decodeTarget
        (CalculateNextWorkRequired ⟨2015, 4838400, 0x1b0404cb⟩ 0
          ⟨2 ^ 224, 1209600, 600, false, false⟩) ≤ 2 ^ 224 :=
  calculateNextWork_le_powLimit ⟨2015, 4838400, 0x1b0404cb⟩ 0
    ⟨2 ^ 224, 1209600, 600, false, false⟩ rfl (by decide)

set_option maxRecDepth 40000 in
/-- C4 counterexample: `targetTimespan = 6` (not divisible by 4),
`targetSpacing = 1`, retarget height 6, `oldBits = 0x01050000` (target 5),
`newBits = 0` (target 0).  The code's lower bound is
`re-round(clamp(5 * (6/4) / 6)) = 0`, so it returns `true`; the claim's
lower bound is `re-round(min(5 / 4, powLimit)) = 1 > 0`, so the claim says
the transition is rejected. -/
theorem permittedTransition_counterexample :
    PermittedDifficultyTransition ⟨2 ^ 224, 6, 1, false, false⟩ 6 0x01050000 0 = true ∧
      specPermittedDifficultyTransition ⟨2 ^ 224, 6, 1, false, false⟩ 6 0x01050000 0 =
        false := by
  constructor <;> decide

/-- C4 (amended): provided `targetTimespan` is positive, divisible by 4,
with `targetTimespan * 4 < 2^32` and
`decode(oldBits) * (targetTimespan * 4) < 2^256` — so the fixed-width
multiplier conversion and the 256-bit product neither truncate nor wrap —
`permittedDifficultyTransition` returns `true` whenever
`allowMinDifficultyBlocks` is set; at a non-retarget height iff
`oldBits == newBits`; and at a retarget boundary iff the observed target is
at most the `encodeCompact∘decode`-re-rounded `min(decode(oldBits)*4,
powLimit)` and at least the identically re-rounded
`min(decode(oldBits)/4, powLimit)`. -/
theorem permittedTransition_spec (p : ConsensusParams) (height : Int)
    (old_nbits new_nbits : Nat)
    (hT : 0 < p.nPowTargetTimespan)
    (hT4 : (4 : Int) ∣ p.nPowTargetTimespan)
    (hT32 : p.nPowTargetTimespan * 4 < 2 ^ 32)
    (hnw : decodeTarget old_nbits * (p.nPowTargetTimespan * 4).toNat < U256) :
    PermittedDifficultyTransition p height old_nbits new_nbits =
      specPermittedDifficultyTransition p height old_nbits new_nbits := by
  by_cases hmin : p.fPowAllowMinDifficultyBlocks = true
  · simp [PermittedDifficultyTransition, specPermittedDifficultyTransition, hmin]
  · by_cases hb : Int.tmod height p.DifficultyAdjustmentInterval = 0
    · -- retarget boundary
      obtain ⟨k, hk⟩ := hT4
      have hk0 : (0:Int) < k := by omega
      have h32a : toUInt32n (p.nPowTargetTimespan * 4) = (p.nPowTargetTimespan * 4).toNat := by
        unfold toUInt32n
        congr 1
        refine Int.emod_eq_of_lt (by omega) ?_
        push_cast
        omega
      have htd : Int.tdiv p.nPowTargetTimespan 4 = k := by
        rw [hk]
        exact Int.mul_tdiv_cancel_left k (by norm_num)
      have h32b : toUInt32n (Int.tdiv p.nPowTargetTimespan 4) =
          (Int.tdiv p.nPowTargetTimespan 4).toNat := by
        unfold toUInt32n
        congr 1
        refine Int.emod_eq_of_lt (by rw [htd]; omega) ?_
        rw [htd]
        push_cast
        omega
      have h64 : toUInt64n p.nPowTargetTimespan = p.nPowTargetTimespan.toNat := by
        unfold toUInt64n
        congr 1
        refine Int.emod_eq_of_lt (by omega) ?_
        push_cast
        omega
      have hupper : (decodeTarget old_nbits * toUInt32n (p.nPowTargetTimespan * 4)) % U256 /
          toUInt64n p.nPowTargetTimespan = decodeTarget old_nbits * 4 := by
        rw [h32a, h64, Nat.mod_eq_of_lt hnw,
          show (p.nPowTargetTimespan * 4).toNat = p.nPowTargetTimespan.toNat * 4 from by omega,
          show decodeTarget old_nbits * (p.nPowTargetTimespan.toNat * 4) =
            decodeTarget old_nbits * 4 * p.nPowTargetTimespan.toNat from by ring,
          Nat.mul_div_cancel _ (by omega : 0 < p.nPowTargetTimespan.toNat)]
      have hlowmod : decodeTarget old_nbits * (Int.tdiv p.nPowTargetTimespan 4).toNat <
          U256 := by
        refine lt_of_le_of_lt (Nat.mul_le_mul_left _ ?_) hnw
        rw [htd]
        omega
      have hlower : (decodeTarget old_nbits *
          toUInt32n (Int.tdiv p.nPowTargetTimespan 4)) % U256 /
          toUInt64n p.nPowTargetTimespan = decodeTarget old_nbits / 4 := by
        rw [h32b, h64, Nat.mod_eq_of_lt hlowmod, htd,
          show p.nPowTargetTimespan.toNat = 4 * k.toNat from by omega]
        exact Nat.mul_div_mul_right _ _ (by omega : 0 < k.toNat)
      simp only [PermittedDifficultyTransition, specPermittedDifficultyTransition, hmin,
        Bool.false_eq_true, if_false]
      rw [if_pos hb, if_neg (not_not_intro hb), hupper, hlower,
        show (if decodeTarget old_nbits * 4 > p.powLimit then p.powLimit
          else decodeTarget old_nbits * 4) = min (decodeTarget old_nbits * 4) p.powLimit
          from by split <;> omega,
        show (if decodeTarget old_nbits / 4 > p.powLimit then p.powLimit
          else decodeTarget old_nbits / 4) = min (decodeTarget old_nbits / 4) p.powLimit
          from by split <;> omega]
      split_ifs with h1 h2 <;> simp <;> omega
    · -- non-retarget height
      simp only [PermittedDifficultyTransition, specPermittedDifficultyTransition, hmin,
        Bool.false_eq_true, if_false]
      rw [if_neg hb, if_pos hb]
      by_cases heq : old_nbits = new_nbits
      · simp [heq]
      · simp [heq]

set_option maxRecDepth 40000 in
/-- Witness for the amended C4 at concrete inputs (the mainnet-style
parameters, a retarget boundary). -/
theorem permittedTransition_spec_witness :
    PermittedDifficultyTransition ⟨2 ^ 224, 1209600, 600, false, false⟩ 2016
        0x1b0404cb 0x1b0404cb =
      specPermittedDifficultyTransition ⟨2 ^ 224, 1209600, 600, false, false⟩ 2016
        0x1b0404cb 0x1b0404cb :=
  permittedTransition_spec ⟨2 ^ 224, 1209600, 600, false, false⟩ 2016 0x1b0404cb 0x1b0404cb
    (by decide) (by decide) (by decide) (by decide)

end Bitbi

